import Mathlib

/-!
Shallow embedding of the UHF SCF numerical core of `scf/uhf.py`.

Matrices are dense square rational matrices (`Matrix (Fin n) (Fin n) ℚ`);
exact rational arithmetic models the real/complex float arithmetic of the
source, whose claims here are algebraic.  Spin-paired quantities are ordered
pairs `(alpha, beta)`.  External collaborators (the two-electron integral
contraction `hf.get_jk`, the damping and level-shift helpers `hf.damping` /
`hf.level_shift` from `scf/hf.py`, the DIIS accumulator, `numpy.linalg.svd`)
are taken as function parameters, exactly as the spec treats them: black-box
numeric providers, matrices in, matrices out.

A second, untyped matrix model (`NpMat`, dimensions as data, entries in an
IEEE-style float type `NpF` with infinities and NaN) is used for
`det_ovlp`, whose claims are about numpy shape errors and division by a zero
singular value; there the shape checks of `numpy.dot` and the non-finite
results of `numpy.reciprocal` are part of the observable behaviour.
-/

/-- Square rational matrix of dimension `n` (one AO-basis matrix). -/
abbrev Sq (n : ℕ) := Matrix (Fin n) (Fin n) ℚ

/-- Spin-paired matrix `(alpha, beta)`. -/
abbrev SqPair (n : ℕ) := Sq n × Sq n

/-- A density-like argument as the python code receives it: either a single
2-D array or a spin pair (`dm.ndim == 2` test in the source). -/
inductive NdOrPair (n : ℕ) where
  | single (m : Sq n)
  | pair (p : SqPair n)

/-- Source lines 159-160 / 235-236 / 400-401 / 691-692: a single 2-D density
matrix `dm` is replaced by the pair `(dm*.5, dm*.5)`. -/
def resolveDm {n : ℕ} : NdOrPair n → SqPair n
  | .single d => ((1/2 : ℚ) • d, (1/2 : ℚ) • d)
  | .pair p => p

/-- Damping / level-shift configuration value: the source accepts either a
single number or a per-spin pair (lines 147-154). -/
inductive ScalarOrPair where
  | scalar (x : ℚ)
  | perSpin (x y : ℚ)

/-- Resolution of a scalar-or-pair configuration value into `(alpha, beta)`
factors (source lines 147-154). -/
def resolveSp : ScalarOrPair → ℚ × ℚ
  | .scalar x => (x, x)
  | .perSpin x y => (x, y)

/-- Source `_makevhf` (lines 747-751): `vj = vj[0] + vj[1]`,
`v_a = vj - vk[0]`, `v_b = vj - vk[1]`. -/
def makevhf {n : ℕ} (vj vk : SqPair n) : SqPair n :=
  (vj.1 + vj.2 - vk.1, vj.1 + vj.2 - vk.2)

/-- Module-level `get_veff` (lines 129-136) for one spin-paired density.
`jk` is the external two-electron integral contraction `hf.get_jk`
(Coulomb and exchange matrices per spin); for a single spin pair the
`reshape` bookkeeping of the source is the identity.  `ddm = dm - dm_last`,
then `_makevhf` of the contraction of `ddm`, then `+ vhf_last`. -/
def get_veff {n : ℕ} (jk : SqPair n → SqPair n × SqPair n)
    (dm dm_last vhf_last : SqPair n) : SqPair n :=
  let ddm := dm - dm_last
  makevhf (jk ddm).1 (jk ddm).2 + vhf_last

/-- Source line 156-158: `f = h1e + vhf`; when both are 2-D the sum is
duplicated onto the two spins, otherwise numpy broadcasting adds `h1e`
to each spin component. -/
def fockInit {n : ℕ} (h1e : Sq n) (vhf : NdOrPair n) : SqPair n :=
  match vhf with
  | .single v => (h1e + v, h1e + v)
  | .pair p => (h1e + p.1, h1e + p.2)

/-- Per-spin damping application (source lines 162-163); `damping` is the
external helper `hf.damping` from `scf/hf.py`. -/
def dampStage {n : ℕ} (damping : Sq n → Sq n → Sq n → ℚ → Sq n)
    (s1e : Sq n) (dmp : SqPair n) (dp : ℚ × ℚ) (f : SqPair n) : SqPair n :=
  (damping s1e dmp.1 f.1 dp.1, damping s1e dmp.2 f.2 dp.2)

/-- Level-shift stage (source lines 166-168): applied per spin when the
total shift magnitude exceeds `1e-4`; `ls` is the external helper
`hf.level_shift` from `scf/hf.py`. -/
def shiftStage {n : ℕ} (ls : Sq n → Sq n → Sq n → ℚ → Sq n)
    (s1e : Sq n) (dmp : SqPair n) (sp : ℚ × ℚ) (f : SqPair n) : SqPair n :=
  if 1/10000 < |sp.1| + |sp.2| then
    (ls s1e dmp.1 f.1 sp.1, ls s1e dmp.2 f.2 sp.2)
  else f

/-- Source `get_fock` (lines 138-169).  `damping` and `ls` are the external
helpers `hf.damping` and `hf.level_shift`; `adiis` is the optional DIIS
accumulator, a black-box `update(s1e, dm, f)`; `cycle` and
`diis_start_cycle` are (python) integers.  The float literal `1e-4` of the
source is the exact rational `1/10000`. -/
def get_fock {n : ℕ} (damping ls : Sq n → Sq n → Sq n → ℚ → Sq n)
    (adiis : Option (Sq n → SqPair n → SqPair n → SqPair n))
    (h1e s1e : Sq n) (vhf dm : NdOrPair n) (cycle diis_start_cycle : ℤ)
    (level_shift_factor damp_factor : ScalarOrPair) : SqPair n :=
  let dp := resolveSp damp_factor
  let f0 := fockInit h1e vhf
  let dmp := resolveDm dm
  let f1 :=
    if 0 ≤ cycle ∧ cycle < diis_start_cycle - 1 ∧ 1/10000 < |dp.1| + |dp.2| then
      dampStage damping s1e dmp dp f0
    else f0
  let f2 :=
    match adiis with
    | some upd => if diis_start_cycle ≤ cycle then upd s1e dmp f1 else f1
    | none => f1
  shiftStage ls s1e dmp (resolveSp level_shift_factor) f2

/-- The damping branch condition of `get_fock` (source line 161). -/
def dampCond (cycle diis_start_cycle : ℤ) (damp_factor : ScalarOrPair) : Prop :=
  0 ≤ cycle ∧ cycle < diis_start_cycle - 1 ∧
    1/10000 < |(resolveSp damp_factor).1| + |(resolveSp damp_factor).2|

/-- The DIIS branch condition of `get_fock` (source line 164): an
accumulator is present and `cycle >= diis_start_cycle`. -/
def diisCond {υ : Type} (adiis : Option υ) (cycle diis_start_cycle : ℤ) : Prop :=
  adiis.isSome = true ∧ diis_start_cycle ≤ cycle

/-- C1.  For every pair of Coulomb matrices and exchange matrices produced
by the integral provider from a density-matrix pair, `get_veff` (with the
default zero baselines) returns the spin-paired effective potential
`V_alpha = (J_alpha + J_beta) - K_alpha` and
`V_beta = (J_alpha + J_beta) - K_beta`. -/
theorem get_veff_spin_combination {n : ℕ}
    (jk : SqPair n → SqPair n × SqPair n) (dm : SqPair n)
    (vj vk : SqPair n) (h : jk dm = (vj, vk)) :
    get_veff jk dm 0 0 = (vj.1 + vj.2 - vk.1, vj.1 + vj.2 - vk.2) := by
  unfold get_veff makevhf
  simp only [sub_zero, h, add_zero]

/-- Witness for C1: a concrete linear provider and density pair. -/
theorem get_veff_spin_combination_witness :
    get_veff (n := 1) (fun d => (d, d))
        ((fun _ _ => 1), (fun _ _ => 2)) 0 0
      = ((fun _ _ => 1) + (fun _ _ => 2) - (fun _ _ => 1),
         (fun _ _ => 1) + (fun _ _ => 2) - (fun _ _ => 2)) :=
  get_veff_spin_combination (fun d => (d, d))
    ((fun _ _ => 1), (fun _ _ => 2)) _ _ rfl

/-- Subtraction distributes through `_makevhf` componentwise. -/
theorem makevhf_sub {n : ℕ} (vj vk wj wk : SqPair n) :
    makevhf (vj - wj) (vk - wk) = makevhf vj vk - makevhf wj wk := by
  unfold makevhf
  refine Prod.ext ?_ ?_ <;> simp [Prod.sub_def] <;> abel

/-- C2.  The incremental-update path of `get_veff`: the returned potential
is the two-electron potential of the increment `dm - dm_last` plus
`vhf_last`; with the zero baseline the incremental path coincides with the
direct computation; and when the integral contraction is linear in the
density, updating from a consistent baseline
`vhf_last = get_veff jk dm_last 0 0` reproduces the direct result. -/
theorem get_veff_incremental {n : ℕ}
    (jk : SqPair n → SqPair n × SqPair n)
    (hlin : ∀ x y, jk (x - y) = jk x - jk y)
    (dm dm_last vhf_last : SqPair n) :
    get_veff jk dm dm_last vhf_last
        = makevhf (jk (dm - dm_last)).1 (jk (dm - dm_last)).2 + vhf_last
    ∧ get_veff jk dm 0 0 = makevhf (jk dm).1 (jk dm).2
    ∧ get_veff jk dm dm_last (get_veff jk dm_last 0 0) = get_veff jk dm 0 0 := by
  refine ⟨rfl, ?_, ?_⟩
  · unfold get_veff
    simp only [sub_zero, add_zero]
  · unfold get_veff
    simp only [sub_zero, add_zero, hlin dm dm_last, Prod.fst_sub, Prod.snd_sub,
      makevhf_sub]
    abel

/-- Witness for C2: a concrete linear provider, on which the incremental
path from a consistent baseline equals the direct computation. -/
theorem get_veff_incremental_witness :
    get_veff (n := 1) (fun d => (d, d)) ((fun _ _ => 3), (fun _ _ => 4))
        ((fun _ _ => 1), (fun _ _ => 1))
        (get_veff (fun d => (d, d)) ((fun _ _ => 1), (fun _ _ => 1)) 0 0)
      = get_veff (fun d => (d, d)) ((fun _ _ => 3), (fun _ _ => 4)) 0 0 :=
  (get_veff_incremental (fun d => (d, d)) (fun _ _ => rfl)
    ((fun _ _ => 3), (fun _ _ => 4)) ((fun _ _ => 1), (fun _ _ => 1)) 0).2.2

/-- C3.  With damping factor 0, level shift 0 and no DIIS accumulator,
`get_fock` returns exactly `F = h1e + vhf` for both spins, for any cycle
value, both for a spin-paired `vhf` and for a spin-independent 2-D `vhf`
(which is broadcast to the two spins). -/
theorem get_fock_no_corrections {n : ℕ}
    (damping ls : Sq n → Sq n → Sq n → ℚ → Sq n)
    (h1e s1e : Sq n) (dm : NdOrPair n) (cycle diis_start_cycle : ℤ) :
    (∀ va vb : Sq n,
      get_fock damping ls none h1e s1e (.pair (va, vb)) dm cycle
          diis_start_cycle (.scalar 0) (.scalar 0)
        = (h1e + va, h1e + vb))
    ∧ (∀ v : Sq n,
      get_fock damping ls none h1e s1e (.single v) dm cycle
          diis_start_cycle (.scalar 0) (.scalar 0)
        = (h1e + v, h1e + v)) := by
  constructor <;> intros <;>
    norm_num [get_fock, fockInit, shiftStage, resolveSp]

/-- Documented contract of `numpy.argsort` with its default
`kind='quicksort'` (source lines 173-174): the result is a permutation of
all indices along which the values are ascending.  numpy documents the
default kind as NOT stable, so nothing is promised about the relative
order of indices carrying equal values; `get_occ` is therefore modelled
parametrically in the index-sorting routine realising this contract. -/
def argsortContract {m : ℕ} (sorter : (Fin m → ℚ) → List (Fin m)) : Prop :=
  ∀ e : Fin m → ℚ, (sorter e).Perm (List.finRange m)
    ∧ List.Sorted (fun i j => e i ≤ e j) (sorter e)

/-- Occupation vector of one spin channel (source lines 179-181):
`mo_occ = zeros_like(e); mo_occ[idx[:nocc]] = 1`, where `idx` is the
argsort result. -/
def occvec {m : ℕ} (idx : List (Fin m)) (nocc : ℕ) : Fin m → ℚ :=
  fun i => if i ∈ idx.take nocc then 1 else 0

/-- Source `get_occ` (lines 171-181), the behaviour-relevant part,
parametric in the `numpy.argsort` routine `sorter`; the verbose HOMO/LUMO
diagnostics (lines 182-210) only log and never change the returned
occupations. -/
def get_occ {m : ℕ} (sorter : (Fin m → ℚ) → List (Fin m))
    (moE : (Fin m → ℚ) × (Fin m → ℚ)) (nelec : ℕ × ℕ) :
    (Fin m → ℚ) × (Fin m → ℚ) :=
  (occvec (sorter moE.1) nelec.1, occvec (sorter moE.2) nelec.2)

theorem occvec_eq_one_iff {m : ℕ} (idx : List (Fin m)) (nocc : ℕ)
    (i : Fin m) : occvec idx nocc i = 1 ↔ i ∈ idx.take nocc := by
  unfold occvec
  by_cases h : i ∈ idx.take nocc <;> simp [h]

theorem occvec_zero_or_one {m : ℕ} (idx : List (Fin m)) (nocc : ℕ)
    (i : Fin m) : occvec idx nocc i = 0 ∨ occvec idx nocc i = 1 := by
  unfold occvec
  by_cases h : i ∈ idx.take nocc <;> simp [h]

theorem occvec_card {m : ℕ} {idx : List (Fin m)} (nocc : ℕ)
    (hperm : idx.Perm (List.finRange m)) (h : nocc ≤ m) :
    (Finset.univ.filter fun i => occvec idx nocc i = 1).card = nocc := by
  have hnd : idx.Nodup := hperm.symm.nodup (List.nodup_finRange m)
  have hlen : idx.length = m :=
    hperm.length_eq.trans (List.length_finRange m)
  have hset : (Finset.univ.filter fun i => occvec idx nocc i = 1)
      = (idx.take nocc).toFinset := by
    ext i
    simp [occvec_eq_one_iff]
  rw [hset, List.toFinset_card_of_nodup ((idx.take_sublist nocc).nodup hnd),
    List.length_take, hlen]
  omega

theorem occvec_lowest {m : ℕ} {e : Fin m → ℚ} {idx : List (Fin m)}
    (nocc : ℕ) (hperm : idx.Perm (List.finRange m))
    (hsorted : List.Sorted (fun i j => e i ≤ e j) idx) (i j : Fin m)
    (hi : occvec idx nocc i = 1) (hj : occvec idx nocc j = 0) :
    e i ≤ e j := by
  have hmemi : i ∈ idx.take nocc := (occvec_eq_one_iff idx nocc i).mp hi
  have hmemj : j ∉ idx.take nocc := by
    intro hh
    have h1 : occvec idx nocc j = 1 := (occvec_eq_one_iff idx nocc j).mpr hh
    rw [hj] at h1
    exact one_ne_zero h1.symm
  have hdropj : j ∈ idx.drop nocc := by
    have hm : j ∈ idx := hperm.mem_iff.mpr (List.mem_finRange j)
    rw [← List.take_append_drop nocc idx, List.mem_append] at hm
    tauto
  rw [List.Sorted, ← List.take_append_drop nocc idx,
    List.pairwise_append] at hsorted
  exact hsorted.2.2 i hmemi j hdropj

/-- Ascending order by energy that breaks ties between equal energies
toward the larger original index. -/
def tieRevKey {m : ℕ} (e : Fin m → ℚ) (i j : Fin m) : Prop :=
  e i < e j ∨ (e i = e j ∧ j ≤ i)

instance {m : ℕ} (e : Fin m → ℚ) : DecidableRel (tieRevKey e) :=
  fun i j => by
    unfold tieRevKey
    infer_instance

instance {m : ℕ} (e : Fin m → ℚ) : IsTotal (Fin m) (tieRevKey e) := by
  constructor
  intro i j
  rcases lt_trichotomy (e i) (e j) with h | h | h
  · exact Or.inl (Or.inl h)
  · rcases le_total i j with hij | hij
    · exact Or.inr (Or.inr ⟨h.symm, hij⟩)
    · exact Or.inl (Or.inr ⟨h, hij⟩)
  · exact Or.inr (Or.inl h)

instance {m : ℕ} (e : Fin m → ℚ) : IsTrans (Fin m) (tieRevKey e) := by
  constructor
  rintro i j k (h1 | ⟨h1, h1i⟩) (h2 | ⟨h2, h2i⟩)
  · exact Or.inl (h1.trans h2)
  · exact Or.inl (h2 ▸ h1)
  · exact Or.inl (h1 ▸ h2)
  · exact Or.inr ⟨h1.trans h2, h2i.trans h1i⟩

/-- A sorting routine inside the documented `numpy.argsort` contract that
breaks ties between equal energies by descending original index; the
default numpy kind promises no stability, so this behaviour is within the
contract. -/
def tieRevSort {m : ℕ} (e : Fin m → ℚ) : List (Fin m) :=
  List.insertionSort (tieRevKey e) (List.finRange m)

theorem tieRevSort_contract {m : ℕ} :
    argsortContract (tieRevSort (m := m)) := by
  intro e
  refine ⟨List.perm_insertionSort (tieRevKey e) (List.finRange m), ?_⟩
  have hs : List.Sorted (tieRevKey e) (tieRevSort e) :=
    List.sorted_insertionSort (tieRevKey e) (List.finRange m)
  exact List.Pairwise.imp
    (fun h => h.elim le_of_lt (fun hh => le_of_eq hh.1)) hs

/-- The numpy broadcast `mo * mo_occ` of source line 70-71: the matrix
whose column `k` is the column `k` of `C` scaled by `occ k`. -/
def colScale {nao nmo : ℕ} {K : Type} [Mul K]
    (C : Matrix (Fin nao) (Fin nmo) K) (occ : Fin nmo → K) :
    Matrix (Fin nao) (Fin nmo) K :=
  Matrix.of fun i k => C i k * occ k

/-- Source `make_rdm1` (lines 62-72):
`dm_spin = dot(mo_spin * occ_spin, mo_spin.T.conj())`.  Entries live in an
arbitrary commutative star ring, covering the real and complex arrays of
the source. -/
def make_rdm1 {nao nmo : ℕ} {K : Type} [CommRing K] [StarRing K]
    (moa mob : Matrix (Fin nao) (Fin nmo) K) (occa occb : Fin nmo → K) :
    Matrix (Fin nao) (Fin nao) K × Matrix (Fin nao) (Fin nao) K :=
  (colScale moa occa * moa.conjTranspose,
   colScale mob occb * mob.conjTranspose)

theorem colScale_eq_mul_diagonal {nao nmo : ℕ} {K : Type} [CommRing K]
    (C : Matrix (Fin nao) (Fin nmo) K) (occ : Fin nmo → K) :
    colScale C occ = C * Matrix.diagonal occ := by
  ext i k
  rw [Matrix.mul_diagonal]
  rfl

theorem rdm_herm {nao nmo : ℕ} {K : Type} [CommRing K] [StarRing K]
    (C : Matrix (Fin nao) (Fin nmo) K) (occ : Fin nmo → K)
    (hocc : ∀ k, star (occ k) = occ k) :
    (colScale C occ * C.conjTranspose).conjTranspose
      = colScale C occ * C.conjTranspose := by
  rw [colScale_eq_mul_diagonal, Matrix.conjTranspose_mul,
    Matrix.conjTranspose_mul, Matrix.conjTranspose_conjTranspose,
    Matrix.diagonal_conjTranspose]
  have hs : star occ = occ := funext hocc
  rw [hs, Matrix.mul_assoc]

theorem rdm_trace {nao nmo : ℕ} {K : Type} [CommRing K] [StarRing K]
    (C : Matrix (Fin nao) (Fin nmo) K) (occ : Fin nmo → K)
    (horth : C.conjTranspose * C = 1) :
    (colScale C occ * C.conjTranspose).trace = ∑ k, occ k := by
  rw [colScale_eq_mul_diagonal, Matrix.trace_mul_comm, ← Matrix.mul_assoc,
    horth, one_mul, Matrix.trace_diagonal]

/-- C6.  `make_rdm1` returns the pair
`dm_spin = C_spin * diag(occ_spin) * C_spin^H`; with real occupations each
matrix is Hermitian, and with orbitals orthonormal in the trace sense
(`C^H C = 1`) the trace of each spin density is the sum of the occupations
of that spin. -/
theorem make_rdm1_density {nao nmo : ℕ} {K : Type} [CommRing K] [StarRing K]
    (moa mob : Matrix (Fin nao) (Fin nmo) K) (occa occb : Fin nmo → K)
    (hsa : ∀ k, star (occa k) = occa k) (hsb : ∀ k, star (occb k) = occb k) :
    make_rdm1 moa mob occa occb
        = (moa * Matrix.diagonal occa * moa.conjTranspose,
           mob * Matrix.diagonal occb * mob.conjTranspose)
    ∧ (make_rdm1 moa mob occa occb).1.conjTranspose
        = (make_rdm1 moa mob occa occb).1
    ∧ (make_rdm1 moa mob occa occb).2.conjTranspose
        = (make_rdm1 moa mob occa occb).2
    ∧ (moa.conjTranspose * moa = 1 →
        (make_rdm1 moa mob occa occb).1.trace = ∑ k, occa k)
    ∧ (mob.conjTranspose * mob = 1 →
        (make_rdm1 moa mob occa occb).2.trace = ∑ k, occb k) := by
  refine ⟨?_, rdm_herm moa occa hsa, rdm_herm mob occb hsb,
    rdm_trace moa occa, rdm_trace mob occb⟩
  unfold make_rdm1
  rw [colScale_eq_mul_diagonal, colScale_eq_mul_diagonal]

/-- Witness for C6: identity orbitals with unit occupations; the alpha
density has trace 1. -/
theorem make_rdm1_density_witness :
    (make_rdm1 (1 : Matrix (Fin 1) (Fin 1) ℚ) 1
        (fun _ => 1) (fun _ => 1)).1.trace = ∑ _k : Fin 1, (1 : ℚ) :=
  (make_rdm1_density (1 : Matrix (Fin 1) (Fin 1) ℚ) 1 (fun _ => 1)
      (fun _ => 1) (fun _ => by simp) (fun _ => by simp)).2.2.2.1 (by simp)

/-- Value of the numpy double expression `2*(sqrt(radicand) - .5) + 1`
computed by `spin_square` (source lines 349-350): `numpy.sqrt` of a
negative radicand yields NaN (with only a runtime warning, no exception),
and the affine image of NaN is NaN; a nonnegative radicand gives the
finite multiplicity, kept symbolically by its radicand since square roots
leave ℚ. -/
inductive NpSqrtVal where
  | nan : NpSqrtVal
  | sqrtOf (radicand : ℚ) : NpSqrtVal
  deriving DecidableEq

/-- Multiplicity `2S+1` as returned by the source: NaN exactly when
`ss + 0.25 < 0`. -/
def npMultiplicity (ss : ℚ) : NpSqrtVal :=
  if ss + 1/4 < 0 then .nan else .sqrtOf (ss + 1/4)

/-- Source `spin_square` (lines 342-350) on occupied alpha / beta orbital
blocks: `s = mo_a.T @ s @ mo_b`,
`ssxy = (nocc_a+nocc_b)*.5 - (s**2).sum()`,
`ssz = (nocc_b-nocc_a)**2*.25`, returns `(ss, 2*(sqrt(ss+.25)-.5)+1)`. -/
def spin_square {nao na nb : ℕ} (moa : Matrix (Fin nao) (Fin na) ℚ)
    (mob : Matrix (Fin nao) (Fin nb) ℚ) (s : Sq nao) : ℚ × NpSqrtVal :=
  let sab := moa.transpose * s * mob
  let ssxy := ((na : ℚ) + (nb : ℚ)) * (1/2) - ∑ i, ∑ j, (sab i j) ^ 2
  let ssz := ((nb : ℚ) - (na : ℚ)) ^ 2 * (1/4)
  let ss := ssxy + ssz
  (ss, npMultiplicity ss)

/-- C7 (amended).  When the computed spin expectation value falls below
`-0.25`, `spin_square` does not raise: it returns normally, with the
multiplicity equal to NaN (`numpy.sqrt` of the negative radicand), contrary
to the claim that an error is raised instead of returning NaN. -/
theorem spin_square_nan_below_domain {nao na nb : ℕ}
    (moa : Matrix (Fin nao) (Fin na) ℚ) (mob : Matrix (Fin nao) (Fin nb) ℚ)
    (s : Sq nao) (h : (spin_square moa mob s).1 < -(1/4)) :
    (spin_square moa mob s).2 = NpSqrtVal.nan := by
  have h2 : (spin_square moa mob s).2
      = npMultiplicity ((spin_square moa mob s).1) := rfl
  rw [h2]
  unfold npMultiplicity
  rw [if_pos (by linarith)]

/-- Counterexample to C7 as stated: on concrete inputs with spin
expectation `-3 < -0.25` (one orbital per spin, overlap entry 2, i.e.
non-orthonormal inputs), `spin_square` returns a value, with NaN
multiplicity, instead of raising an error. -/
theorem spin_square_claim_counterexample :
    (spin_square (1 : Matrix (Fin 1) (Fin 1) ℚ) (1 : Matrix (Fin 1) (Fin 1) ℚ) (fun _ _ => 2)).1 < -(1/4)
    ∧ (spin_square (1 : Matrix (Fin 1) (Fin 1) ℚ) (1 : Matrix (Fin 1) (Fin 1) ℚ)
        (fun _ _ => 2)).2 = NpSqrtVal.nan := by
  have h1 : (spin_square (1 : Matrix (Fin 1) (Fin 1) ℚ) (1 : Matrix (Fin 1) (Fin 1) ℚ)
      (fun _ _ => 2)).1 = -3 := by
    simp [spin_square, Fin.sum_univ_one]
    norm_num
  constructor
  · rw [h1]
    norm_num
  · have h2 : (spin_square (1 : Matrix (Fin 1) (Fin 1) ℚ) (1 : Matrix (Fin 1) (Fin 1) ℚ) (fun _ _ => 2)).2
        = npMultiplicity ((spin_square (1 : Matrix (Fin 1) (Fin 1) ℚ)
            (1 : Matrix (Fin 1) (Fin 1) ℚ) (fun _ _ => 2)).1) := rfl
    rw [h2, h1]
    unfold npMultiplicity
    rw [if_pos (by norm_num)]

/-- Witness for C7 (amended): a distinct concrete input (overlap entry 3,
spin expectation `-8`) on which the theorem applies. -/
theorem spin_square_nan_below_domain_witness :
    (spin_square (1 : Matrix (Fin 1) (Fin 1) ℚ) (1 : Matrix (Fin 1) (Fin 1) ℚ)
        (fun _ _ => 3)).2 = NpSqrtVal.nan :=
  spin_square_nan_below_domain (1 : Matrix (Fin 1) (Fin 1) ℚ) (1 : Matrix (Fin 1) (Fin 1) ℚ) (fun _ _ => 3) (by
    have h1 : (spin_square (1 : Matrix (Fin 1) (Fin 1) ℚ) (1 : Matrix (Fin 1) (Fin 1) ℚ)
        (fun _ _ => 3)).1 = -8 := by
      simp [spin_square, Fin.sum_univ_one]
      norm_num
    rw [h1]
    norm_num)

/-- Source `energy_elec` (lines 226-242) with all inputs supplied:
`e1 = einsum(h1e.conj(), dm[0]+dm[1])` and
`e_coul = (einsum(vhf[0], dm[0].T-contracted) + einsum(vhf[1], ...)) * .5`;
over the rational model conjugation is the identity.  Returns
`(e1 + e_coul, e_coul)`. -/
def energy_elec {n : ℕ} (h1e : Sq n) (vhf : SqPair n) (dm : NdOrPair n) :
    ℚ × ℚ :=
  let dmp := resolveDm dm
  let e1 := ∑ i, ∑ j, h1e i j * (dmp.1 + dmp.2) i j
  let ecoul := ((∑ i, ∑ j, vhf.1 i j * dmp.1 j i)
    + (∑ i, ∑ j, vhf.2 i j * dmp.2 j i)) * (1/2)
  (e1 + ecoul, ecoul)

/-- Source `mulliken_pop` (lines 391-419), the numeric part: per-AO
populations `pop_spin[i] = sum_j (dm_spin * s)[i, j]` and per-atom charges
`chg[a] = Z_a - sum of populations of the AOs centred on atom a`.  The
AO-to-atom map and nuclear charges come from the external `mol` object. -/
def mulliken_pop {n natm : ℕ} (atmOf : Fin n → Fin natm)
    (atomCharge : Fin natm → ℚ) (dm : NdOrPair n) (s : Sq n) :
    (Fin n → ℚ) × (Fin n → ℚ) × (Fin natm → ℚ) :=
  let dmp := resolveDm dm
  let popA := fun i => ∑ j, dmp.1 i j * s i j
  let popB := fun i => ∑ j, dmp.2 i j * s i j
  let chg := fun a => atomCharge a
    - ∑ i ∈ Finset.univ.filter (fun i => atmOf i = a), (popA i + popB i)
  (popA, popB, chg)

/-- The method `UHF.get_veff` (lines 687-701): the density is normalised
to a spin pair, then either the incore branch contracts the full density
(ignoring the baseline) or the direct branch contracts the increment and
adds `vhf_last`. -/
def UHF_get_veff {n : ℕ} (incore : Bool)
    (jk : SqPair n → SqPair n × SqPair n) (dm : NdOrPair n)
    (dm_last vhf_last : SqPair n) : SqPair n :=
  let dmp := resolveDm dm
  if incore then
    makevhf (jk dmp).1 (jk dmp).2
  else
    makevhf (jk (dmp - dm_last)).1 (jk (dmp - dm_last)).2 + vhf_last

/-- C10.  At every entry point taking a density argument — `get_fock`,
`energy_elec`, `mulliken_pop` and the method `UHF.get_veff` — a single 2-D
density matrix `dm` is interpreted as the spin pair `(dm*0.5, dm*0.5)`, so
calling with the 2-D matrix is equivalent to calling with that halved
pair. -/
theorem single_dm_is_halved_pair {n natm : ℕ}
    (damping ls : Sq n → Sq n → Sq n → ℚ → Sq n)
    (adiis : Option (Sq n → SqPair n → SqPair n → SqPair n))
    (h1e s1e : Sq n) (vhf : NdOrPair n) (cycle diis_start_cycle : ℤ)
    (lsf df : ScalarOrPair) (vhfp : SqPair n)
    (atmOf : Fin n → Fin natm) (atomCharge : Fin natm → ℚ) (s : Sq n)
    (incore : Bool) (jk : SqPair n → SqPair n × SqPair n)
    (dm_last vhf_last : SqPair n) (d : Sq n) :
    get_fock damping ls adiis h1e s1e vhf (.single d) cycle
        diis_start_cycle lsf df
      = get_fock damping ls adiis h1e s1e vhf
          (.pair ((1/2 : ℚ) • d, (1/2 : ℚ) • d)) cycle diis_start_cycle lsf df
    ∧ energy_elec h1e vhfp (.single d)
      = energy_elec h1e vhfp (.pair ((1/2 : ℚ) • d, (1/2 : ℚ) • d))
    ∧ mulliken_pop atmOf atomCharge (.single d) s
      = mulliken_pop atmOf atomCharge (.pair ((1/2 : ℚ) • d, (1/2 : ℚ) • d)) s
    ∧ UHF_get_veff incore jk (.single d) dm_last vhf_last
      = UHF_get_veff incore jk (.pair ((1/2 : ℚ) • d, (1/2 : ℚ) • d))
          dm_last vhf_last :=
  ⟨rfl, rfl, rfl, rfl⟩

/-- IEEE-double value model for the `det_ovlp` pipeline: exact rationals
plus the two infinities and NaN.  Finite float arithmetic is modelled
exactly; `numpy.reciprocal(0.0)` yields `+inf` (a runtime warning, not an
exception). -/
inductive NpF where
  | fin (q : ℚ)
  | pinf
  | ninf
  | nan
  deriving DecidableEq

/-- IEEE addition on the value model. -/
def NpF.add : NpF → NpF → NpF
  | .nan, _ => .nan
  | _, .nan => .nan
  | .fin a, .fin b => .fin (a + b)
  | .fin _, .pinf => .pinf
  | .pinf, .fin _ => .pinf
  | .fin _, .ninf => .ninf
  | .ninf, .fin _ => .ninf
  | .pinf, .pinf => .pinf
  | .ninf, .ninf => .ninf
  | .pinf, .ninf => .nan
  | .ninf, .pinf => .nan

/-- IEEE multiplication on the value model (`inf * 0 = nan`). -/
def NpF.mul : NpF → NpF → NpF
  | .nan, _ => .nan
  | _, .nan => .nan
  | .fin a, .fin b => .fin (a * b)
  | .fin a, .pinf => if 0 < a then .pinf else if a < 0 then .ninf else .nan
  | .pinf, .fin a => if 0 < a then .pinf else if a < 0 then .ninf else .nan
  | .fin a, .ninf => if 0 < a then .ninf else if a < 0 then .pinf else .nan
  | .ninf, .fin a => if 0 < a then .ninf else if a < 0 then .pinf else .nan
  | .pinf, .pinf => .pinf
  | .pinf, .ninf => .ninf
  | .ninf, .pinf => .ninf
  | .ninf, .ninf => .pinf

/-- Finiteness test: `fin` values only. -/
def NpF.finite : NpF → Bool
  | .fin _ => true
  | _ => false

/-- Left fold sum of a list of float values, starting from `0.0`. -/
def NpF.suml : List NpF → NpF
  | [] => .fin 0
  | x :: xs => x.add (NpF.suml xs)

/-- Untyped dense numpy 2-D array: dimensions are data, as in numpy, so
shape mismatches are runtime errors rather than type errors. -/
structure NpMat where
  rows : ℕ
  cols : ℕ
  entry : Fin rows → Fin cols → NpF

/-- Python exception model: `RuntimeError` (raised explicitly by the
source) versus `ValueError` (raised by numpy on shape mismatches). -/
inductive PyErr where
  | runtimeError (msg : String)
  | valueError (msg : String)
  deriving DecidableEq

/-- The guard message of `det_ovlp` (source line 508). -/
def electronCountMsg : String :=
  "Electron numbers are not equal. Electronic coupling does not exist."

/-- The numpy shape-mismatch message (abbreviated). -/
def shapeMsg : String := "shapes not aligned"

/-- Matrix product `numpy.dot`: fails with a `ValueError` when the inner
dimensions disagree. -/
def npDot (A B : NpMat) : Except PyErr NpMat :=
  if h : A.cols = B.rows then
    .ok ⟨A.rows, B.cols, fun i j =>
      NpF.suml ((List.finRange A.cols).map
        (fun k => (A.entry i k).mul (B.entry (Fin.cast h k) j)))⟩
  else .error (.valueError shapeMsg)

/-- Matrix transpose. -/
def NpMat.T (A : NpMat) : NpMat := ⟨A.cols, A.rows, fun i j => A.entry j i⟩

/-- Boolean-mask column selection `mo[:, occ > 0]` (source lines 510-513):
the mask length must match the column count. -/
def boolSelectCols (A : NpMat) (occ : List ℚ) : Except PyErr NpMat :=
  if h : occ.length = A.cols then
    let idx := (List.finRange A.cols).filter
      (fun j => decide (0 < occ.get (Fin.cast h.symm j)))
    .ok ⟨A.rows, idx.length, fun i k => A.entry i (idx.get k)⟩
  else .error (.valueError "boolean index did not match indexed array")

/-- The matrix `numpy.diag(numpy.reciprocal(sv))` of source lines 518-519:
diagonal of elementwise reciprocals; `numpy.reciprocal(0.0)` is `+inf`
(division warning, not an exception). -/
def diagRecip (sv : List ℚ) : NpMat :=
  ⟨sv.length, sv.length, fun i j =>
    if i = j then (if sv.get i = 0 then .pinf else .fin (sv.get i)⁻¹)
    else .fin 0⟩

/-- The rotation `x = u @ diag(reciprocal(sv)) @ vt` of source lines
518-519. -/
def formX (u : NpMat) (sv : List ℚ) (vt : NpMat) : Except PyErr NpMat :=
  npDot u (diagRecip sv) >>= fun t => npDot t vt

/-- Result triple of `numpy.linalg.svd` (`full_matrices=True`):
`u`, the singular values, and `vt`.  The SVD itself is an external
provider; `det_ovlp` is parametric in it. -/
structure SvdOut where
  u : NpMat
  sv : List ℚ
  vt : NpMat

/-- Shape contract of `numpy.linalg.svd` on an `r x c` input:
`u` is `r x r`, there are `min r c` singular values, `vt` is `c x c`. -/
def svdShapeOk (svd : NpMat → SvdOut) : Prop :=
  ∀ A : NpMat, (svd A).u.rows = A.rows ∧ (svd A).u.cols = A.rows
    ∧ (svd A).sv.length = min A.rows A.cols
    ∧ (svd A).vt.rows = A.cols ∧ (svd A).vt.cols = A.cols

/-- Sum of a rational list (`numpy.sum`). -/
def qsum (l : List ℚ) : ℚ := l.foldr (fun a b => a + b) 0

/-- Product of a rational list (`numpy.prod`). -/
def qprod (l : List ℚ) : ℚ := l.foldr (fun a b => a * b) 1

/-- Body of `det_ovlp` after the electron-count guard (source lines
510-520): select occupied columns per spin and state, form the
occupied-subspace overlap blocks, SVD them, and build the
pseudoinverse-weighted rotations; returns the product of all singular
values together with the two rotations. -/
def det_ovlp_body (svd : NpMat → SvdOut) (mo1 mo2 : NpMat × NpMat)
    (occ1 occ2 : List ℚ × List ℚ) (ovlp : NpMat) :
    Except PyErr (ℚ × NpMat × NpMat) := do
  let c1a ← boolSelectCols mo1.1 occ1.1
  let c1b ← boolSelectCols mo1.2 occ1.2
  let c2a ← boolSelectCols mo2.1 occ2.1
  let c2b ← boolSelectCols mo2.2 occ2.2
  let ta ← npDot c1a.T ovlp
  let oa ← npDot ta c2a
  let tb ← npDot c1b.T ovlp
  let ob ← npDot tb c2b
  let ra := svd oa
  let rb := svd ob
  let xa ← formX ra.u ra.sv ra.vt
  let xb ← formX rb.u rb.sv rb.vt
  return (qprod ra.sv * qprod rb.sv, xa, xb)

/-- Source `det_ovlp` (lines 477-520): raise `RuntimeError` when the total
electron counts `numpy.sum(occ1)` and `numpy.sum(occ2)` differ, otherwise
run the SVD pipeline. -/
def det_ovlp (svd : NpMat → SvdOut) (mo1 mo2 : NpMat × NpMat)
    (occ1 occ2 : List ℚ × List ℚ) (ovlp : NpMat) :
    Except PyErr (ℚ × NpMat × NpMat) :=
  if qsum occ1.1 + qsum occ1.2 ≠ qsum occ2.1 + qsum occ2.2 then
    .error (.runtimeError electronCountMsg)
  else det_ovlp_body svd mo1 mo2 occ1 occ2 ovlp

theorem NpF.add_not_finite {x y : NpF} (h : x.finite = false ∨ y.finite = false) :
    (x.add y).finite = false := by
  cases x <;> cases y <;> simp [NpF.add, NpF.finite] at h ⊢

theorem NpF.mul_not_finite_left {x : NpF} (y : NpF) (h : x.finite = false) :
    (x.mul y).finite = false := by
  cases x <;> cases y <;>
    simp [NpF.mul, NpF.finite] at h ⊢ <;>
    split_ifs <;> simp [NpF.finite]

theorem NpF.mul_pinf_not_finite (x : NpF) :
    (x.mul NpF.pinf).finite = false := by
  cases x <;> simp [NpF.mul, NpF.finite] <;>
    split_ifs <;> simp [NpF.finite]

theorem NpF.suml_not_finite {l : List NpF} {x : NpF} (hm : x ∈ l)
    (hx : x.finite = false) : (NpF.suml l).finite = false := by
  induction l with
  | nil => cases hm
  | cons a t ih =>
    rcases List.mem_cons.mp hm with h | h
    · exact NpF.add_not_finite (Or.inl (h ▸ hx))
    · exact NpF.add_not_finite (Or.inr (ih h))

/-- A computation that cannot end in a python `RuntimeError`. -/
def noRuntimeErr {α : Type} (e : Except PyErr α) : Prop :=
  ∀ msg, e ≠ .error (.runtimeError msg)

theorem noRuntimeErr_ok {α : Type} (a : α) :
    noRuntimeErr (.ok a : Except PyErr α) := by
  intro msg h
  cases h

theorem noRuntimeErr_valueError {α : Type} (m : String) :
    noRuntimeErr (.error (.valueError m) : Except PyErr α) := by
  intro msg h
  cases h

theorem noRuntimeErr_bind {α β : Type} {x : Except PyErr α}
    {f : α → Except PyErr β} (hx : noRuntimeErr x)
    (hf : ∀ a, noRuntimeErr (f a)) : noRuntimeErr (x >>= f) := by
  cases x with
  | ok a => exact hf a
  | error e =>
    intro msg h
    have hbe : (Except.error e : Except PyErr β)
        = Except.error (PyErr.runtimeError msg) := h
    have he : e = PyErr.runtimeError msg := Except.error.inj hbe
    exact hx msg (by rw [he])

theorem noRuntimeErr_npDot (A B : NpMat) : noRuntimeErr (npDot A B) := by
  unfold npDot
  split_ifs
  · exact noRuntimeErr_ok _
  · exact noRuntimeErr_valueError _

theorem noRuntimeErr_boolSelectCols (A : NpMat) (occ : List ℚ) :
    noRuntimeErr (boolSelectCols A occ) := by
  unfold boolSelectCols
  split_ifs
  · exact noRuntimeErr_ok _
  · exact noRuntimeErr_valueError _

theorem noRuntimeErr_formX (u : NpMat) (sv : List ℚ) (vt : NpMat) :
    noRuntimeErr (formX u sv vt) :=
  noRuntimeErr_bind (noRuntimeErr_npDot u (diagRecip sv))
    (fun t => noRuntimeErr_npDot t vt)

theorem noRuntimeErr_det_ovlp_body (svd : NpMat → SvdOut)
    (mo1 mo2 : NpMat × NpMat) (occ1 occ2 : List ℚ × List ℚ) (ovlp : NpMat) :
    noRuntimeErr (det_ovlp_body svd mo1 mo2 occ1 occ2 ovlp) := by
  unfold det_ovlp_body
  refine noRuntimeErr_bind (noRuntimeErr_boolSelectCols _ _) (fun c1a => ?_)
  refine noRuntimeErr_bind (noRuntimeErr_boolSelectCols _ _) (fun c1b => ?_)
  refine noRuntimeErr_bind (noRuntimeErr_boolSelectCols _ _) (fun c2a => ?_)
  refine noRuntimeErr_bind (noRuntimeErr_boolSelectCols _ _) (fun c2b => ?_)
  refine noRuntimeErr_bind (noRuntimeErr_npDot _ _) (fun ta => ?_)
  refine noRuntimeErr_bind (noRuntimeErr_npDot _ _) (fun oa => ?_)
  refine noRuntimeErr_bind (noRuntimeErr_npDot _ _) (fun tb => ?_)
  refine noRuntimeErr_bind (noRuntimeErr_npDot _ _) (fun ob => ?_)
  refine noRuntimeErr_bind (noRuntimeErr_formX _ _ _) (fun xa => ?_)
  refine noRuntimeErr_bind (noRuntimeErr_formX _ _ _) (fun xb => ?_)
  exact noRuntimeErr_ok _

/-- C8 (amended).  `det_ovlp` raises its electron-count `RuntimeError`
when and only when the total electron counts of the two states differ; the
check is the first thing the function does, before any shape is touched.
When the totals are equal no `RuntimeError` can be raised — but, contrary
to the claim, the function need not proceed to a result: with equal totals
and differing per-spin occupied counts the downstream matrix products
raise a shape `ValueError` (see the counterexample). -/
theorem det_ovlp_count_guard (svd : NpMat → SvdOut) (mo1 mo2 : NpMat × NpMat)
    (occ1 occ2 : List ℚ × List ℚ) (ovlp : NpMat) :
    (qsum occ1.1 + qsum occ1.2 ≠ qsum occ2.1 + qsum occ2.2 →
      det_ovlp svd mo1 mo2 occ1 occ2 ovlp
        = .error (.runtimeError electronCountMsg))
    ∧ (qsum occ1.1 + qsum occ1.2 = qsum occ2.1 + qsum occ2.2 →
      ∀ msg, det_ovlp svd mo1 mo2 occ1 occ2 ovlp
        ≠ .error (.runtimeError msg)) := by
  constructor
  · intro h
    unfold det_ovlp
    rw [if_pos h]
  · intro h
    unfold det_ovlp
    rw [if_neg (by simpa using h)]
    exact noRuntimeErr_det_ovlp_body svd mo1 mo2 occ1 occ2 ovlp

/-- Identity matrix as an untyped numpy array. -/
def eyeN (n : ℕ) : NpMat := ⟨n, n, fun i j => if i = j then .fin 1 else .fin 0⟩

/-- A shape-correct SVD provider stub returning identity factors and unit
singular values (the values are irrelevant to shape behaviour). -/
def svdEye (A : NpMat) : SvdOut :=
  ⟨eyeN A.rows, List.replicate (min A.rows A.cols) 1, eyeN A.cols⟩

/-- Witness for C8 (amended): states with 4 and 1 total electrons; the
guard raises the electron-count error. -/
theorem det_ovlp_count_guard_witness :
    det_ovlp svdEye (eyeN 2, eyeN 2) (eyeN 2, eyeN 2)
        ([1, 1], [1, 1]) ([1, 0], [0, 0]) (eyeN 2)
      = .error (.runtimeError electronCountMsg) :=
  (det_ovlp_count_guard svdEye (eyeN 2, eyeN 2) (eyeN 2, eyeN 2)
      ([1, 1], [1, 1]) ([1, 0], [0, 0]) (eyeN 2)).1 (by norm_num [qsum])

/-- Counterexample to C8 as stated: two states with the same total
electron count 2 but different per-spin counts ((2,0) versus (1,1)).  The
guard passes, yet `det_ovlp` does not proceed to a result: the
pseudoinverse product hits mismatched shapes and fails with a
`ValueError`, so it is not the case that an error is raised exactly when
the totals differ. -/
theorem det_ovlp_claim_counterexample :
    qsum [(1 : ℚ), 1] + qsum [0, 0] = qsum [1, 0] + qsum [1, 0]
    ∧ det_ovlp svdEye (eyeN 2, eyeN 2) (eyeN 2, eyeN 2)
        ([1, 1], [0, 0]) ([1, 0], [1, 0]) (eyeN 2)
      = .error (.valueError shapeMsg) := by
  have hg : qsum [(1 : ℚ), 1] + qsum [0, 0] = qsum [1, 0] + qsum [1, 0] := by
    norm_num [qsum]
  refine ⟨hg, ?_⟩
  unfold det_ovlp
  rw [if_neg (by simpa using hg)]
  rfl

theorem npDot_ok (A B : NpMat) (h : A.cols = B.rows) :
    npDot A B = .ok ⟨A.rows, B.cols, fun i j =>
      NpF.suml ((List.finRange A.cols).map
        (fun k => (A.entry i k).mul (B.entry (Fin.cast h k) j)))⟩ := by
  unfold npDot
  rw [dif_pos h]

/-- C9 (amended).  When the singular-value list contains a zero,
`numpy.reciprocal` yields `+inf` instead of raising: the rotation product
`u @ diag(reciprocal(sv)) @ vt` of `det_ovlp` succeeds (no division error
is raised, nothing is clipped or regularized) and every entry of the
returned rotation is non-finite (infinity or NaN). -/
theorem formX_zero_singular (u : NpMat) (sv : List ℚ) (vt : NpMat)
    (hu : u.cols = sv.length) (hvt : vt.rows = sv.length)
    (h0 : (0 : ℚ) ∈ sv) :
    ∃ X : NpMat, formX u sv vt = .ok X ∧ X.rows = u.rows ∧ X.cols = vt.cols
      ∧ ∀ i j, (X.entry i j).finite = false := by
  obtain ⟨k0, hk0⟩ := List.get_of_mem h0
  have hTdot := npDot_ok u (diagRecip sv) hu
  set T : NpMat := ⟨u.rows, (diagRecip sv).cols, fun i j =>
    NpF.suml ((List.finRange u.cols).map
      (fun k => (u.entry i k).mul
        ((diagRecip sv).entry (Fin.cast hu k) j)))⟩ with hT
  have hTv : T.cols = vt.rows := hvt.symm
  have hXdot := npDot_ok T vt hTv
  refine ⟨⟨T.rows, vt.cols, fun i j =>
      NpF.suml ((List.finRange T.cols).map
        (fun k => (T.entry i k).mul (vt.entry (Fin.cast hTv k) j)))⟩,
    ?_, rfl, rfl, ?_⟩
  · unfold formX
    rw [hTdot]
    exact hXdot
  · intro i j
    have hTk0 : (T.entry i k0).finite = false := by
      have hdge : (diagRecip sv).entry
          (Fin.cast hu (Fin.cast hu.symm k0)) k0 = NpF.pinf := by
        show (if k0 = k0 then (if sv.get k0 = 0 then NpF.pinf
          else NpF.fin (sv.get k0)⁻¹) else NpF.fin 0) = NpF.pinf
        rw [if_pos rfl, if_pos hk0]
      show (NpF.suml ((List.finRange u.cols).map
        (fun k => (u.entry i k).mul
          ((diagRecip sv).entry (Fin.cast hu k) k0)))).finite = false
      refine NpF.suml_not_finite
        (List.mem_map_of_mem _ (List.mem_finRange (Fin.cast hu.symm k0))) ?_
      rw [hdge]
      exact NpF.mul_pinf_not_finite _
    show (NpF.suml ((List.finRange T.cols).map
      (fun k => (T.entry i k).mul (vt.entry (Fin.cast hTv k) j)))).finite = false
    exact NpF.suml_not_finite
      (List.mem_map_of_mem _ (List.mem_finRange k0))
      (NpF.mul_not_finite_left _ hTk0)

/-- Witness for C9 (amended): a 1x1 rotation with the single singular
value 0; the product succeeds and the entry is non-finite. -/
theorem formX_zero_singular_witness :
    ∃ X : NpMat, formX (eyeN 1) [0] (eyeN 1) = .ok X
      ∧ X.rows = (eyeN 1).rows ∧ X.cols = (eyeN 1).cols
      ∧ ∀ i j, (X.entry i j).finite = false :=
  formX_zero_singular (eyeN 1) [0] (eyeN 1) rfl rfl (by simp)

/-- All entries of an untyped array are finite floats. -/
def NpMat.allFinite (A : NpMat) : Bool :=
  (List.finRange A.rows).all
    (fun i => (List.finRange A.cols).all (fun j => (A.entry i j).finite))

/-- Determinant-overlap value of a successful `det_ovlp` result. -/
def okDetValue (e : Except PyErr (ℚ × NpMat × NpMat)) : Option ℚ :=
  e.toOption.map (fun r => r.1)

/-- Finiteness of the alpha rotation of a successful `det_ovlp` result. -/
def okRotAlphaFinite (e : Except PyErr (ℚ × NpMat × NpMat)) : Option Bool :=
  e.toOption.map (fun r => r.2.1.allFinite)

/-- SVD provider returning identity factors and all-zero singular values;
on the `1 x 1` zero overlap block reached in the counterexample below this
is the exact singular value decomposition (`u = [[1]]`, `s = [0]`,
`vt = [[1]]`). -/
def svdZeroSv (A : NpMat) : SvdOut :=
  ⟨eyeN A.rows, List.replicate (min A.rows A.cols) 0, eyeN A.cols⟩

/-- The `1 x 1` zero cross-overlap matrix (two mutually orthogonal
states). -/
def zeroOvlp1 : NpMat := ⟨1, 1, fun _ _ => .fin 0⟩

/-- Counterexample to C9 as stated: one electron per spin in each state,
orthogonal states (zero occupied-overlap block, hence a zero singular
value).  `det_ovlp` does not fail with a division error: it returns
successfully, with determinant overlap 0 and a rotation whose entries are
not finite — exactly the infinite rotation the claim says is never
returned. -/
theorem det_ovlp_singular_counterexample :
    (det_ovlp svdZeroSv (eyeN 1, eyeN 1) (eyeN 1, eyeN 1)
        ([1], [1]) ([1], [1]) zeroOvlp1).isOk = true
    ∧ okDetValue (det_ovlp svdZeroSv (eyeN 1, eyeN 1) (eyeN 1, eyeN 1)
        ([1], [1]) ([1], [1]) zeroOvlp1) = some 0
    ∧ okRotAlphaFinite (det_ovlp svdZeroSv (eyeN 1, eyeN 1) (eyeN 1, eyeN 1)
        ([1], [1]) ([1], [1]) zeroOvlp1) = some false := by
  have hb : det_ovlp svdZeroSv (eyeN 1, eyeN 1) (eyeN 1, eyeN 1)
      ([1], [1]) ([1], [1]) zeroOvlp1
      = det_ovlp_body svdZeroSv (eyeN 1, eyeN 1) (eyeN 1, eyeN 1)
        ([1], [1]) ([1], [1]) zeroOvlp1 := by
    unfold det_ovlp
    rw [if_neg (not_ne_iff.mpr rfl)]
  refine ⟨?_, ?_, ?_⟩ <;> rw [hb]
  · rfl
  · have h2 : okDetValue (det_ovlp_body svdZeroSv (eyeN 1, eyeN 1)
        (eyeN 1, eyeN 1) ([1], [1]) ([1], [1]) zeroOvlp1)
        = some (qprod [0] * qprod [0]) := rfl
    rw [h2]
    simp [qprod]
  · rfl
